import Mathlib

/-!
# Verification of the progressive unique-key search and its history cache

This file gives a shallow embedding of the two in-scope source files of the
repository:

* `find_unique.py` — `find_most_unique_column_combination_progressive`, a
  progressive beam search over column combinations of a dataframe, looking
  for the combination with the most distinct rows;
* `store_hist.py` — `parse_history_log` and `preload_cache_from_history`,
  which bulk-import a textual history log into a persistent parquet cache.

A dataframe is modelled as a list of column names together with a list of
rows, each row being a function from column names to values (values are
modelled as naturals; only decidable equality of values matters for distinct
counting).  The polars query
`df.select(pl.struct(cols).n_unique()).item()` is the number of distinct
projections of the rows onto the given column tuple, which is
`distinctCount` below.

The search itself is embedded as a structurally recursive function that, in
addition to the returned (best combination, best count) pair, records a
trace of the stages it ran: for each stage, its size, the beam it started
from, the filtered candidate list, the evaluations performed (in encounter
order), and the beam selected for the next stage (`none` when the stage
terminated the search).  Theorems about the search are stated over this
trace.
-/

namespace FindUnique

/-- A row of the dataframe: a valuation of column names. -/
abbrev Row := String → Nat

/-- Projection of a row onto a tuple of columns, in tuple order.  This is the
value polars groups by in `pl.struct(cols)`. -/
def proj (c : List String) (row : Row) : List Nat := c.map row

/-- `df.select(pl.struct(cols).n_unique()).item()`: the number of distinct
projections of the rows onto the columns `c`. -/
def distinctCount (rows : List Row) (c : List String) : Nat :=
  ((rows.map (proj c)).dedup).length

/-- `itertools.combinations l r` in its enumeration order: combinations that
contain the head of the list come first. -/
def combosL : Nat → List String → List (List String)
  | 0, _ => [[]]
  | _ + 1, [] => []
  | r + 1, x :: xs => (combosL r xs).map (fun c => x :: c) ++ combosL (r + 1) xs

/-- The filter applied to candidates for stages of size `r > 1`: the
combination must share at least one column with at least one combination of
the previous stage's beam (line 87 of `find_unique.py`). -/
def overlaps (beam : List (List String)) (c : List String) : Bool :=
  c.any (fun col => beam.any (fun p => decide (col ∈ p)))

/-- Outcome of the inner evaluation loop of a single stage. -/
structure EvalOut where
  /-- the evaluations performed, in encounter order (on an early return this
  stops at, and includes, the evaluation that reached the total row count) -/
  evals : List (List String × Nat)
  /-- running best combination after the loop -/
  best : List String
  /-- running best count after the loop -/
  bestCount : Nat
  /-- whether the loop returned early because the best count reached the
  total row count -/
  early : Bool
  deriving DecidableEq

/-- The evaluation loop of one stage (lines 96–112 of `find_unique.py`):
evaluate each candidate in order, replace the running best only on a
strictly larger count, and return early as soon as the running best count
equals the total row count. -/
def evalCandidates (rows : List Row) (total : Nat) :
    List (List String) → List String → Nat → EvalOut
  | [], best, cnt => ⟨[], best, cnt, false⟩
  | c :: cs, best, cnt =>
    let n := distinctCount rows c
    let best' := if cnt < n then c else best
    let cnt' := if cnt < n then n else cnt
    if cnt' = total then ⟨[(c, n)], best', cnt', true⟩
    else
      let rest := evalCandidates rows total cs best' cnt'
      ⟨(c, n) :: rest.evals, rest.best, rest.bestCount, rest.early⟩

/-- One step of the stable insertion sort modelling Python's
`sorted(results.items(), key=count, reverse=True)`: insert a pair in front
of the first entry whose count is not larger, so that, among equal counts,
earlier entries stay first. -/
def insertDesc (p : List String × Nat) :
    List (List String × Nat) → List (List String × Nat)
  | [] => [p]
  | q :: qs => if q.2 ≤ p.2 then p :: q :: qs else q :: insertDesc p qs

/-- Stable sort of the stage results, descending by count.  A stable sort is
uniquely determined by its comparator, so this equals the output of Python's
(timsort-based) `sorted` with `key=lambda item: item[1], reverse=True`. -/
def sortDesc (l : List (List String × Nat)) : List (List String × Nat) :=
  l.foldr insertDesc []

/-- The Beam Selector (lines 117–123 of `find_unique.py`): stable-sort the
stage's results descending by count, truncate to `topN`, and keep the
combinations. -/
def selectBeam (evals : List (List String × Nat)) (topN : Nat) :
    List (List String) :=
  ((sortDesc evals).take topN).map Prod.fst

/-- Why the search stopped. -/
inductive StopReason where
  /-- a combination reached the total row count (lines 110–112) -/
  | perfectKey : StopReason
  /-- the pool or the filtered candidate list was empty at a stage of size
  `> 1` (lines 56–58 and 91–93) -/
  | noCandidates : StopReason
  /-- all combination sizes were exhausted -/
  | exhausted : StopReason
  deriving DecidableEq

/-- Trace record of one stage of the search. -/
structure StageLog where
  /-- the combination size `r` of the stage -/
  size : Nat
  /-- the beam carried in from the previous stage -/
  prevBeam : List (List String)
  /-- the filtered candidate list of the stage -/
  candidates : List (List String)
  /-- the evaluations performed, in encounter order -/
  evals : List (List String × Nat)
  /-- the beam selected for the next stage, `none` when the search stopped
  at this stage -/
  beamAfter : Option (List (List String))
  deriving DecidableEq

/-- The result of a run of the search, together with its stage trace. -/
structure RunResult where
  /-- the returned best combination -/
  best : List String
  /-- the returned best count -/
  count : Nat
  /-- the trace of the stages that ran -/
  stages : List StageLog
  /-- why the search stopped -/
  reason : StopReason
  deriving DecidableEq

/-- The filtered candidate list of a stage of size `r` (lines 70–88 of
`find_unique.py`): all size-`r` combinations of the full column list for
stage 1, and for later stages only those size-`r` combinations that overlap
the previous stage's beam. -/
def stageCands (cols : List String) (beam : List (List String)) (r : Nat) :
    List (List String) :=
  if r = 1 then combosL r cols else (combosL r cols).filter (overlaps beam)

/-- The stage loop of `find_most_unique_column_combination_progressive`
(lines 41–133 of `find_unique.py`), over the remaining list of combination
sizes.  The pool emptiness test of lines 56–58 is `beam.flatten = []`: the
pool is the union of the previous beam's combinations. -/
def runFrom (rows : List Row) (cols : List String) (total topN : Nat) :
    List Nat → List String → Nat → List (List String) → RunResult
  | [], best, cnt, _ => ⟨best, cnt, [], .exhausted⟩
  | r :: rs, best, cnt, beam =>
    if 2 ≤ r ∧ beam.flatten = [] then
      ⟨best, cnt, [⟨r, beam, [], [], none⟩], .noCandidates⟩
    else if 2 ≤ r ∧ stageCands cols beam r = [] then
      ⟨best, cnt, [⟨r, beam, [], [], none⟩], .noCandidates⟩
    else
      let out := evalCandidates rows total (stageCands cols beam r) best cnt
      if out.early then
        ⟨out.best, out.bestCount,
          [⟨r, beam, stageCands cols beam r, out.evals, none⟩], .perfectKey⟩
      else
        let rest := runFrom rows cols total topN rs out.best out.bestCount
          (selectBeam out.evals topN)
        ⟨rest.best, rest.count,
          ⟨r, beam, stageCands cols beam r, out.evals,
            some (selectBeam out.evals topN)⟩ :: rest.stages,
          rest.reason⟩

/-- `find_most_unique_column_combination_progressive(df, topN)`: run the
stages for sizes `1 .. cols.length`, starting from the empty best
combination with count `0` and an empty beam. -/
def run (rows : List Row) (cols : List String) (topN : Nat) : RunResult :=
  runFrom rows cols rows.length topN (List.range' 1 cols.length) [] 0 []

/-- All evaluations performed during a run, in order. -/
def allEvals (R : RunResult) : List (List String × Nat) :=
  (R.stages.map StageLog.evals).flatten

/-- The running best count after a sequence of evaluations, starting from
the initial best count `cnt`. -/
def runningBestFrom (cnt : Nat) (l : List (List String × Nat)) : Nat :=
  l.foldl (fun m p => max m p.2) cnt

/-- The running best count after a sequence of evaluations, starting from
the initial best count `0`. -/
def runningBest (l : List (List String × Nat)) : Nat :=
  runningBestFrom 0 l

/-! ### Concrete datasets used as counterexamples and witnesses -/

/-- A row over columns `A`, `B`, `C` with the given values. -/
def mkRow3 (a b c : Nat) : Row :=
  fun s => if s = "A" then a else if s = "B" then b else c

/-- Six rows over columns `A`, `B`, `C`.  The pair `{A, B}` is a perfect
key (all six `(A, B)` projections are distinct), while `C` alone has the
most distinct values of any single column, and neither `{A, C}` nor
`{B, C}` is a perfect key. -/
def cexRows : List Row :=
  [mkRow3 0 0 0, mkRow3 0 1 0, mkRow3 0 2 1, mkRow3 1 2 1,
   mkRow3 1 0 2, mkRow3 1 1 3]

/-- The column list of the counterexample dataset. -/
def cexCols : List String := ["A", "B", "C"]

/-- A row over columns `A`, `B` with the given values. -/
def mkRow2 (a b : Nat) : Row := fun s => if s = "A" then a else b

/-- Two rows over columns `A`, `B` that differ in column `A`: the single
column `A` is already a perfect key. -/
def wRows : List Row := [mkRow2 0 0, mkRow2 1 1]

/-- Four rows over columns `A`, `B`: every `(A, B)` pair occurs once, so
`{A, B}` is a perfect key but neither single column is. -/
def w4Rows : List Row := [mkRow2 0 0, mkRow2 0 1, mkRow2 1 0, mkRow2 1 1]

/-- The column list of the two-column witness datasets. -/
def wCols : List String := ["A", "B"]

/-- The first stage log of the run of the search on `cexRows` with beam
width `1`. -/
def cexStage1 : StageLog :=
  ((run cexRows cexCols 1).stages).getD 0 ⟨0, [], [], [], none⟩

/-- The second stage log of the run of the search on `cexRows` with beam
width `1`. -/
def cexStage2 : StageLog :=
  ((run cexRows cexCols 1).stages).getD 1 ⟨0, [], [], [], none⟩

/-- The second stage log of the run of the search on `w4Rows` with beam
width `0` (the stage at which the beam has collapsed to empty). -/
def w4Stage2 : StageLog :=
  ((run w4Rows wCols 0).stages).getD 1 ⟨0, [], [], [], none⟩

end FindUnique

/-!
## The history cache importer (`store_hist.py`)

`parse_history_log` scans a text log with the regex
`Testing \[(.*?)\][^\d]*(\d+) unique rows \((.*?)%\)` and, for each
matching line, produces `(sorted(columns), int(group2), float(group3)/100)`.
`preload_cache_from_history` turns the parsed records into cache rows for a
given dataset name and merges them into the parquet store, deduplicating by
the key `(dataset_name, columns)` with polars' `unique(keep="first")` when
a store already exists.

The embedding abstracts one log line as `Option LogMatch`: `none` for a
line the regex does not match, and `some m` where `m` carries the matched
groups (the raw text of group 1, the digits of group 2, and the rational
value that Python's `float` gives for group 3).  A missing log file is
`none` at the file level, matching the `FileNotFoundError` handler.  Row
order inside the store is preserved by the model's keep-first
deduplication; polars only guarantees the resulting set of rows, so
set-level claims are the faithful reading.
-/

namespace StoreHist

/-- One row of the parquet cache, after `CACHE_SCHEMA`:
`dataset_name: Utf8, columns: List(Utf8), num_unique: Int64,
unique_percentage: Float64` (the float is modelled as a rational). -/
structure CacheEntry where
  /-- the dataset identifier -/
  dataset_name : String
  /-- the column combination -/
  columns : List String
  /-- the distinct-row count -/
  num_unique : ℤ
  /-- the distinct-row fraction -/
  unique_percentage : ℚ
  deriving DecidableEq

/-- The deduplication key used by
`unique(subset=["dataset_name", "columns"], keep="first")`. -/
def keyOf (e : CacheEntry) : String × List String := (e.dataset_name, e.columns)

/-- Keep-first deduplication by key, with an accumulator of the keys already
seen. -/
def dedupFirstAux :
    List (String × List String) → List CacheEntry → List CacheEntry
  | _, [] => []
  | seen, e :: es =>
    if keyOf e ∈ seen then dedupFirstAux seen es
    else e :: dedupFirstAux (keyOf e :: seen) es

/-- `df.unique(subset=["dataset_name", "columns"], keep="first")`: keep, for
every key, the first row bearing it. -/
def dedupFirst (l : List CacheEntry) : List CacheEntry := dedupFirstAux [] l

/-- The groups of one successful match of the history-log regex
`Testing \[(.*?)\][^\d]*(\d+) unique rows \((.*?)%\)`. -/
structure LogMatch where
  /-- group 1: the raw text between the square brackets -/
  colStr : String
  /-- group 2: the digits of the unique-row count (each `< 10`) -/
  digits : List Nat
  /-- the rational value Python's `float` yields on group 3 (lines whose
  group 3 does not parse as a float raise and import nothing) -/
  pct : ℚ
  deriving DecidableEq

/-- The numeric value of a digit string, as computed by Python's `int`. -/
def digitsVal (ds : List Nat) : Nat := ds.foldl (fun a d => 10 * a + d) 0

/-- Drop the characters satisfying `p` from both ends of a character
list. -/
def stripBoth (p : Char → Bool) (l : List Char) : List Char :=
  ((l.dropWhile p).reverse.dropWhile p).reverse

/-- Python's `str.strip()`: remove leading and trailing whitespace. -/
def pyStrip (s : String) : String :=
  String.mk (stripBoth Char.isWhitespace s.toList)

/-- Python's `str.strip("'\"")`: remove leading and trailing single or
double quotes. -/
def pyStripQuotes (s : String) : String :=
  String.mk (stripBoth (fun ch => ch = Char.ofNat 39 ∨ ch = Char.ofNat 34)
    s.toList)

/-- `col.strip().strip("'\"")` applied to one piece of group 1. -/
def cleanColumn (s : String) : String := pyStripQuotes (pyStrip s)

/-- Splitting a character list at every comma, keeping empty pieces —
Python's `str.split(',')`. -/
def splitComma : List Char → List (List Char)
  | [] => [[]]
  | ch :: rest =>
    match splitComma rest with
    | [] => [[]]
    | cur :: done =>
      if ch = Char.ofNat 44 then [] :: cur :: done else (ch :: cur) :: done

/-- `[col.strip().strip("'\"") for col in column_str.split(',')]`. -/
def splitColumns (s : String) : List String :=
  (splitComma s.toList).map (fun cs => cleanColumn (String.mk cs))

/-- Lexicographic comparison of character lists by code point — the order
Python's string comparison uses. -/
def charListLe : List Char → List Char → Bool
  | [], _ => true
  | _ :: _, [] => false
  | a :: as, b :: bs =>
    if a.toNat < b.toNat then true
    else if b.toNat < a.toNat then false
    else charListLe as bs

/-- String comparison by code point (Python's `<=` on `str`). -/
def strLe (a b : String) : Bool := charListLe a.toList b.toList

/-- Insertion step of the stable ascending sort modelling Python's
`sorted`: an element is placed in front of the first already-sorted entry
it compares `<=` to, so equal elements keep their original order. -/
def insertStr (x : String) : List String → List String
  | [] => [x]
  | y :: ys => if strLe x y then x :: y :: ys else y :: insertStr x ys

/-- Python's `sorted` on strings: a stable ascending sort by the
code-point lexicographic order. -/
def sortStrings (l : List String) : List String := l.foldr insertStr []

/-- The record `(sorted(columns), num_unique, percentage / 100.0)` appended
for one matching line (lines 42–51 of `store_hist.py`). -/
def parseRecord (m : LogMatch) : List String × ℤ × ℚ :=
  (sortStrings (splitColumns m.colStr), (digitsVal m.digits : ℤ), m.pct / 100)

/-- `parse_history_log`: `none` stands for a missing file, on which the
`FileNotFoundError` handler returns the empty list; otherwise every
matching line contributes one record, in file order. -/
def parse_history_log (file : Option (List (Option LogMatch))) :
    List (List String × ℤ × ℚ) :=
  match file with
  | none => []
  | some lines => (lines.filterMap id).map parseRecord

/-- The conversion of parsed records to cache rows for the target dataset
name (lines 83–92 of `store_hist.py`). -/
def toEntries (name : String) (recs : List (List String × ℤ × ℚ)) :
    List CacheEntry :=
  recs.map (fun r => ⟨name, r.1, r.2.1, r.2.2⟩)

/-- `preload_cache_from_history`: parse the log; if nothing was parsed,
return without touching the store; otherwise merge into the existing store
with keep-first deduplication, or create a fresh store holding exactly the
new rows (lines 76–116 of `store_hist.py`). -/
def preload_cache_from_history (file : Option (List (Option LogMatch)))
    (store : Option (List CacheEntry)) (name : String) :
    Option (List CacheEntry) :=
  let parsed := parse_history_log file
  if parsed = [] then store
  else
    let newEntries := toEntries name parsed
    match store with
    | some s => some (dedupFirst (s ++ newEntries))
    | none => some newEntries

/-! ### Concrete history logs used as counterexamples and witnesses -/

/-- A history log whose two matching lines report different counts for the
same column set `['a']`. -/
def dupFile : List (Option LogMatch) :=
  [some ⟨"'a'", [4], 40⟩, none, some ⟨"'a'", [5], 50⟩]

/-- A history log with a single matching line whose percentage is `250.0`
(a value the parser accepts and divides by `100` without any validation). -/
def pctFile : List (Option LogMatch) :=
  [some ⟨"'a'", [5], 250⟩]

/-- A well-formed history log: two matching lines with percentages inside
`[0, 100]` and unsorted column text. -/
def goodFile : List (Option LogMatch) :=
  [some ⟨"'b', 'a'", [4], 0⟩, none, some ⟨"'c'", [1, 0], 100⟩]

/-- The first cache row the import of `goodFile` writes. -/
def goodEntry : CacheEntry := ⟨"d", ["a", "b"], 4, 0 / 100⟩

/-- The store created by importing `dupFile` into no pre-existing store:
both duplicate-keyed records are written. -/
def dupStore1 : List CacheEntry :=
  (preload_cache_from_history (some dupFile) none "d").getD []

/-- The store after importing `dupFile` a second time, now on top of
`dupStore1`: the keep-first deduplication collapses the duplicate key. -/
def dupStore2 : List CacheEntry :=
  (preload_cache_from_history (some dupFile) (some dupStore1) "d").getD []

/-- The store created by importing `pctFile` into no pre-existing store. -/
def pctStore : List CacheEntry :=
  (preload_cache_from_history (some pctFile) none "d").getD []

end StoreHist

/-!
## The caching Evaluator of the search (spec §4.3)

The repository's search script that consults the parquet cache while
searching is not among the provided source files — `find_unique.py`
evaluates every candidate directly against the dataframe, and
`store_hist.py` only bulk-imports history into the cache that script reads
(its `CACHE_SCHEMA` comment points at "the main script").  The Evaluator
below is therefore modelled from the spec.
-/

namespace CacheSearch

/-- Modelled from the spec: "canonicalize the column set (sort names) to
form the cache key" (§4.3).  The caching Evaluator itself is missing from
the provided sources. -/
def canonKey (c : List String) : List String := StoreHist.sortStrings c

/-- Modelled from the spec: the Cache Store's point lookup of the entry for
`(dataset identifier, canonical column set)` (§4.5, §4.3). -/
def lookupStore (s : List StoreHist.CacheEntry) (did : String)
    (key : List String) : Option StoreHist.CacheEntry :=
  s.find? (fun e => decide (e.dataset_name = did ∧ e.columns = key))

/-- The outcome of one evaluation: the count and fraction returned, the
number of Dataset Handle distinct-count queries performed, and the store
after the evaluation's staged write. -/
structure EvalResult where
  /-- the distinct-row count returned -/
  count : ℤ
  /-- the distinct-row fraction returned -/
  frac : ℚ
  /-- how many Dataset Handle distinct-count queries were performed -/
  queries : Nat
  /-- the store after the evaluation -/
  store : List StoreHist.CacheEntry
  deriving DecidableEq

/-- Modelled from the spec: the caching Evaluator of §4.3, absent from the
provided sources.  "Look up in Cache Store.  On hit, return the stored
result unchanged (count is never recomputed for a cache hit).  On miss,
invoke the Dataset Handle's distinct-count query for exactly that column
subset, compute the fraction from the authoritative total-row-count, and
stage the new (key, result) pair for a durable write."  The Dataset
Handle's distinct-count query is `FindUnique.distinctCount`. -/
def evaluateCached (s : List StoreHist.CacheEntry) (did : String)
    (rows : List FindUnique.Row) (c : List String) : EvalResult :=
  let key := canonKey c
  match lookupStore s did key with
  | some e => ⟨e.num_unique, e.unique_percentage, 0, s⟩
  | none =>
    let n := FindUnique.distinctCount rows c
    let frac : ℚ := (n : ℚ) / (rows.length : ℚ)
    ⟨(n : ℤ), frac, 1, s ++ [⟨did, key, (n : ℤ), frac⟩]⟩

/-- A store holding one pre-seeded entry, used as a witness. -/
def wStore : List StoreHist.CacheEntry := [⟨"ds", ["a", "b"], 5, 5 / 6⟩]

end CacheSearch


/-!
## Lemmas about the search model
-/

namespace FindUnique

theorem distinctCount_le_length (rows : List Row) (c : List String) :
    distinctCount rows c ≤ rows.length := by
  have h1 : ((rows.map (proj c)).dedup).length ≤ (rows.map (proj c)).length :=
    (List.dedup_sublist _).length_le
  simpa [distinctCount] using h1

theorem dedup_map_length_le {α β γ : Type} [DecidableEq β] [DecidableEq γ]
    (f : α → β) (g : α → γ) (h : ∀ a b, f a = f b → g a = g b) :
    ∀ l : List α, ((l.map g).dedup).length ≤ ((l.map f).dedup).length := by
  intro l
  induction l with
  | nil => simp
  | cons x xs ih =>
    by_cases hf : f x ∈ xs.map f
    · obtain ⟨y, hy, hyx⟩ := List.mem_map.mp hf
      have hg : g x ∈ xs.map g := List.mem_map.mpr ⟨y, hy, h _ _ hyx⟩
      simp only [List.map_cons]
      rw [List.dedup_cons_of_mem hf, List.dedup_cons_of_mem hg]
      exact ih
    · simp only [List.map_cons]
      rw [List.dedup_cons_of_not_mem hf]
      by_cases hg : g x ∈ xs.map g
      · rw [List.dedup_cons_of_mem hg]
        simpa using Nat.le_succ_of_le ih
      · rw [List.dedup_cons_of_not_mem hg]
        simpa using ih

theorem map_pointwise_of_eq {d : List String} {r1 r2 : Row}
    (h : d.map r1 = d.map r2) : ∀ x ∈ d, r1 x = r2 x := by
  induction d with
  | nil => simp
  | cons y ys ih =>
    simp only [List.map_cons, List.cons.injEq] at h
    intro x hx
    rcases List.mem_cons.mp hx with rfl | hx
    · exact h.1
    · exact ih h.2 x hx

theorem proj_eq_of_subset {c d : List String} (hsub : ∀ x ∈ c, x ∈ d)
    {r1 r2 : Row} (h : proj d r1 = proj d r2) : proj c r1 = proj c r2 := by
  have hpt := map_pointwise_of_eq h
  unfold proj
  exact List.map_congr_left (fun x hx => hpt x (hsub x hx))

theorem distinctCount_mono (rows : List Row) {c d : List String}
    (hsub : ∀ x ∈ c, x ∈ d) : distinctCount rows c ≤ distinctCount rows d :=
  dedup_map_length_le (proj d) (proj c)
    (fun _ _ hab => proj_eq_of_subset hsub hab) rows

theorem mem_combosL : ∀ {r : Nat} {l c : List String},
    c ∈ combosL r l ↔ c.Sublist l ∧ c.length = r := by
  intro r l
  induction l generalizing r with
  | nil =>
    intro c
    cases r with
    | zero =>
      simp only [combosL, List.mem_singleton]
      constructor
      · rintro rfl; exact ⟨List.Sublist.refl _, rfl⟩
      · rintro ⟨hs, hl⟩; exact List.eq_nil_of_length_eq_zero hl
    | succ r =>
      simp only [combosL, List.not_mem_nil, false_iff, not_and]
      intro hs
      have := List.sublist_nil.mp hs
      subst this
      simp
  | cons x xs ih =>
    intro c
    cases r with
    | zero =>
      simp only [combosL, List.mem_singleton]
      constructor
      · rintro rfl; exact ⟨List.nil_sublist _, rfl⟩
      · rintro ⟨hs, hl⟩; exact List.eq_nil_of_length_eq_zero hl
    | succ r =>
      simp only [combosL, List.mem_append, List.mem_map]
      constructor
      · rintro (⟨c', hc', rfl⟩ | hc)
        · obtain ⟨hs, hl⟩ := ih.mp hc'
          exact ⟨hs.cons₂ x, by simp [hl]⟩
        · obtain ⟨hs, hl⟩ := ih.mp hc
          exact ⟨hs.cons x, hl⟩
      · rintro ⟨hs, hl⟩
        cases hs with
        | cons _ h' => exact Or.inr (ih.mpr ⟨h', hl⟩)
        | cons₂ _ h' =>
          refine Or.inl ⟨_, ih.mpr ⟨h', ?_⟩, rfl⟩
          simpa using hl

theorem combosL_eq_nil_of_lt : ∀ {r : Nat} {l : List String},
    l.length < r → combosL r l = [] := by
  intro r l
  induction l generalizing r with
  | nil =>
    intro h
    cases r with
    | zero => omega
    | succ r => rfl
  | cons x xs ih =>
    intro h
    cases r with
    | zero => omega
    | succ r =>
      have h1 : xs.length < r := by simpa using h
      have h2 : xs.length < r + 1 := Nat.lt_succ_of_lt h1
      simp [combosL, ih h1, ih h2]

theorem combosL_length_self : ∀ l : List String, combosL l.length l = [l] := by
  intro l
  induction l with
  | nil => rfl
  | cons x xs ih =>
    have hgt : xs.length < xs.length + 1 := Nat.lt_succ_self _
    simp [combosL, ih, combosL_eq_nil_of_lt hgt]

theorem sublist_extend {s l : List String} (h : s.Sublist l)
    (hlen : s.length < l.length) :
    ∃ t, s.Sublist t ∧ t.Sublist l ∧ t.length = s.length + 1 := by
  induction l generalizing s with
  | nil => simp at hlen
  | cons x xs ih =>
    cases h with
    | cons _ h' =>
      by_cases heq : s.length = xs.length
      · have hxs : s = xs := h'.eq_of_length heq
        subst hxs
        exact ⟨x :: s, List.sublist_cons_self x s, List.Sublist.refl _, rfl⟩
      · have hlt : s.length < xs.length :=
          Nat.lt_of_le_of_ne h'.length_le heq
        obtain ⟨t, h1, h2, h3⟩ := ih h' hlt
        exact ⟨t, h1, h2.cons x, h3⟩
    | cons₂ _ h' =>
      rename_i s'
      have hlen' : s'.length < xs.length := by simpa using hlen
      obtain ⟨t, h1, h2, h3⟩ := ih h' hlen'
      exact ⟨x :: t, h1.cons₂ x, h2.cons₂ x, by simp [h3]⟩

theorem sublist_extend_to_aux (l : List String) (m : Nat) (hm2 : m ≤ l.length) :
    ∀ (d : Nat) (s : List String), s.Sublist l → s.length ≤ m →
      m - s.length = d → ∃ t, s.Sublist t ∧ t.Sublist l ∧ t.length = m := by
  intro d
  induction d with
  | zero =>
    intro s hs hm1 hd
    have hsm : s.length = m := by omega
    exact ⟨s, List.Sublist.refl _, hs, hsm⟩
  | succ d ih =>
    intro s hs hm1 hd
    have hlt : s.length < l.length := by omega
    obtain ⟨t1, h1, h2, h3⟩ := sublist_extend hs hlt
    obtain ⟨t, g1, g2, g3⟩ := ih t1 h2 (by omega) (by omega)
    exact ⟨t, h1.trans g1, g2, g3⟩

theorem sublist_extend_to {s l : List String} (h : s.Sublist l) (m : Nat)
    (hm1 : s.length ≤ m) (hm2 : m ≤ l.length) :
    ∃ t, s.Sublist t ∧ t.Sublist l ∧ t.length = m :=
  sublist_extend_to_aux l m hm2 (m - s.length) s h hm1 rfl

theorem insertDesc_perm (p : List String × Nat) (l : List (List String × Nat)) :
    (insertDesc p l).Perm (p :: l) := by
  induction l with
  | nil => exact List.Perm.refl _
  | cons q qs ih =>
    rw [insertDesc]
    by_cases hc : q.2 ≤ p.2
    · simp only [if_pos hc]
      exact List.Perm.refl _
    · simp only [if_neg hc]
      exact (ih.cons q).trans (List.Perm.swap p q qs)

theorem sortDesc_perm (l : List (List String × Nat)) : (sortDesc l).Perm l := by
  induction l with
  | nil => exact List.Perm.refl _
  | cons p ps ih =>
    have h1 : (insertDesc p (sortDesc ps)).Perm (p :: sortDesc ps) :=
      insertDesc_perm p (sortDesc ps)
    exact h1.trans (ih.cons p)

theorem insertDesc_pairwise {p : List String × Nat}
    {l : List (List String × Nat)}
    (h : l.Pairwise (fun a b => b.2 ≤ a.2)) :
    (insertDesc p l).Pairwise (fun a b => b.2 ≤ a.2) := by
  induction l with
  | nil => simp [insertDesc]
  | cons q qs ih =>
    rw [List.pairwise_cons] at h
    rw [insertDesc]
    by_cases hc : q.2 ≤ p.2
    · simp only [if_pos hc]
      refine List.Pairwise.cons ?_ (List.Pairwise.cons h.1 h.2)
      intro z hz
      rcases List.mem_cons.mp hz with rfl | hz
      · exact hc
      · exact le_trans (h.1 z hz) hc
    · simp only [if_neg hc]
      refine List.Pairwise.cons ?_ (ih h.2)
      intro z hz
      rcases List.mem_cons.mp ((insertDesc_perm p qs).mem_iff.mp hz) with
        rfl | hz
      · exact le_of_not_le hc
      · exact h.1 z hz

theorem sortDesc_pairwise (l : List (List String × Nat)) :
    (sortDesc l).Pairwise (fun a b => b.2 ≤ a.2) := by
  induction l with
  | nil => simp [sortDesc]
  | cons p ps ih => exact insertDesc_pairwise ih

theorem insertDesc_filter (p : List String × Nat)
    (l : List (List String × Nat)) (n : Nat) :
    (insertDesc p l).filter (fun q => q.2 == n)
      = (p :: l).filter (fun q => q.2 == n) := by
  induction l with
  | nil => rfl
  | cons q qs ih =>
    rw [insertDesc]
    by_cases hc : q.2 ≤ p.2
    · simp [if_pos hc]
    · simp only [if_neg hc]
      have hpq : p.2 < q.2 := lt_of_not_le hc
      by_cases hp : p.2 = n
      · have hq : (q.2 == n) = false := by
          apply beq_false_of_ne
          omega
        simp only [List.filter_cons, hq]
        rw [ih]
        simp [List.filter_cons, hp, hq]
      · have hp' : (p.2 == n) = false := beq_false_of_ne hp
        simp only [List.filter_cons, hp']
        by_cases hq : q.2 = n
        · simp only [List.filter_cons, ih, hp']
          simp [hq]
        · have hq' : (q.2 == n) = false := beq_false_of_ne hq
          simp only [List.filter_cons, ih, hp', hq']
          simp

theorem sortDesc_filter (l : List (List String × Nat)) (n : Nat) :
    (sortDesc l).filter (fun q => q.2 == n)
      = l.filter (fun q => q.2 == n) := by
  induction l with
  | nil => rfl
  | cons p ps ih =>
    have h1 := insertDesc_filter p (sortDesc ps) n
    simp only [sortDesc, List.foldr_cons] at h1 ⊢
    rw [h1, List.filter_cons, List.filter_cons]
    rw [sortDesc] at ih
    rw [ih]

theorem selectBeam_length (evals : List (List String × Nat)) (topN : Nat) :
    (selectBeam evals topN).length ≤ topN := by
  unfold selectBeam
  rw [List.length_map, List.length_take]
  exact min_le_left _ _

theorem selectBeam_ne_nil {evals : List (List String × Nat)} {topN : Nat}
    (he : evals ≠ []) (ht : 1 ≤ topN) : selectBeam evals topN ≠ [] := by
  unfold selectBeam
  have hs : sortDesc evals ≠ [] := by
    intro hnil
    have hp := sortDesc_perm evals
    rw [hnil] at hp
    exact he hp.symm.eq_nil
  obtain ⟨q, qs, hqs⟩ := List.exists_cons_of_ne_nil hs
  obtain ⟨m, hm⟩ := Nat.exists_eq_add_of_le ht
  rw [hqs, hm]
  simp [List.take_cons]

theorem selectBeam_mem {evals : List (List String × Nat)} {topN : Nat}
    {b : List String} (hb : b ∈ selectBeam evals topN) :
    ∃ n, (b, n) ∈ evals := by
  unfold selectBeam at hb
  obtain ⟨q, hq, rfl⟩ := List.mem_map.mp hb
  have hq2 : q ∈ sortDesc evals := (List.take_sublist _ _).subset hq
  have hq3 : q ∈ evals := (sortDesc_perm evals).subset hq2
  exact ⟨q.2, hq3⟩

theorem ite_eq_max (cnt n : Nat) : (if cnt < n then n else cnt) = max cnt n := by
  by_cases h : cnt < n
  · simp [h, Nat.max_eq_right (Nat.le_of_lt h)]
  · simp [h, Nat.max_eq_left (Nat.le_of_not_lt h)]

theorem evalCandidates_early_total (rows : List Row) (total : Nat) :
    ∀ (cs : List (List String)) (best : List String) (cnt : Nat),
      (evalCandidates rows total cs best cnt).early = true →
      (evalCandidates rows total cs best cnt).bestCount = total := by
  intro cs
  induction cs with
  | nil => intro best cnt h; simp [evalCandidates] at h
  | cons c cs ih =>
    intro best cnt h
    simp only [evalCandidates] at h ⊢
    by_cases hc :
        (if cnt < distinctCount rows c then distinctCount rows c else cnt)
          = total
    · simp [if_pos hc, hc]
    · simp only [if_neg hc] at h ⊢
      exact ih _ _ h

theorem evalCandidates_not_early_evals (rows : List Row) (total : Nat) :
    ∀ (cs : List (List String)) (best : List String) (cnt : Nat),
      (evalCandidates rows total cs best cnt).early = false →
      (evalCandidates rows total cs best cnt).evals
        = cs.map (fun c => (c, distinctCount rows c)) := by
  intro cs
  induction cs with
  | nil => intro best cnt _; simp [evalCandidates]
  | cons c cs ih =>
    intro best cnt h
    simp only [evalCandidates] at h ⊢
    by_cases hc :
        (if cnt < distinctCount rows c then distinctCount rows c else cnt)
          = total
    · simp [if_pos hc] at h
    · simp only [if_neg hc] at h ⊢
      simp [ih _ _ h]

theorem evalCandidates_count_fold (rows : List Row) (total : Nat) :
    ∀ (cs : List (List String)) (best : List String) (cnt : Nat),
      (evalCandidates rows total cs best cnt).bestCount
        = runningBestFrom cnt (evalCandidates rows total cs best cnt).evals := by
  intro cs
  induction cs with
  | nil => intro best cnt; simp [evalCandidates, runningBestFrom]
  | cons c cs ih =>
    intro best cnt
    simp only [evalCandidates] at *
    by_cases hc :
        (if cnt < distinctCount rows c then distinctCount rows c else cnt)
          = total
    · simp only [if_pos hc]
      simp [runningBestFrom, ite_eq_max]
    · simp only [if_neg hc]
      simp only [runningBestFrom, List.foldl_cons] at ih ⊢
      rw [ih]
      rw [ite_eq_max]

theorem evalCandidates_best_mem (rows : List Row) (total : Nat) :
    ∀ (cs : List (List String)) (best : List String) (cnt : Nat),
      ((evalCandidates rows total cs best cnt).best = best ∧
        (evalCandidates rows total cs best cnt).bestCount = cnt) ∨
      ((evalCandidates rows total cs best cnt).best,
        (evalCandidates rows total cs best cnt).bestCount)
          ∈ (evalCandidates rows total cs best cnt).evals := by
  intro cs
  induction cs with
  | nil => intro best cnt; left; simp [evalCandidates]
  | cons c cs ih =>
    intro best cnt
    simp only [evalCandidates]
    by_cases hc :
        (if cnt < distinctCount rows c then distinctCount rows c else cnt)
          = total
    · simp only [if_pos hc]
      by_cases hlt : cnt < distinctCount rows c
      · right; simp [hlt]
      · left; simp [hlt]
    · simp only [if_neg hc]
      by_cases hlt : cnt < distinctCount rows c
      · simp only [if_pos hlt]
        rcases ih c (distinctCount rows c) with ⟨h1, h2⟩ | hmem
        · right
          simp only [List.mem_cons]
          left
          rw [h1, h2]
        · right
          simp only [List.mem_cons]
          exact Or.inr hmem
      · simp only [if_neg hlt]
        rcases ih best cnt with ⟨h1, h2⟩ | hmem
        · exact Or.inl ⟨h1, h2⟩
        · right
          simp only [List.mem_cons]
          exact Or.inr hmem

theorem evalCandidates_early_of_mem (rows : List Row) (total : Nat)
    (htot : total = rows.length) :
    ∀ (cs : List (List String)) (best : List String) (cnt : Nat)
      (c : List String), cnt ≤ total → c ∈ cs →
      distinctCount rows c = total →
      (evalCandidates rows total cs best cnt).early = true := by
  intro cs
  induction cs with
  | nil => intro best cnt c _ hmem; simp at hmem
  | cons c0 cs ih =>
    intro best cnt c hcnt hmem hdc
    simp only [evalCandidates]
    by_cases hc :
        (if cnt < distinctCount rows c0 then distinctCount rows c0 else cnt)
          = total
    · simp [if_pos hc]
    · simp only [if_neg hc]
      rcases List.mem_cons.mp hmem with rfl | hmem
      · exfalso
        apply hc
        rw [hdc]
        by_cases hlt : cnt < total
        · simp [hlt]
        · simp only [if_neg hlt]
          omega
      · apply ih _ _ c _ hmem hdc
        rw [ite_eq_max]
        have hn : distinctCount rows c0 ≤ total := by
          rw [htot]; exact distinctCount_le_length rows c0
        omega

theorem combosL_one (l : List String) : combosL 1 l = l.map (fun x => [x]) := by
  induction l with
  | nil => rfl
  | cons x xs ih => simp [combosL, ih]

theorem overlaps_iff (beam : List (List String)) (c : List String) :
    overlaps beam c = true ↔ ∃ x ∈ c, ∃ b ∈ beam, x ∈ b := by
  unfold overlaps
  simp

theorem overlaps_eq_false_of_flatten_nil {beam : List (List String)}
    (h : beam.flatten = []) (c : List String) : overlaps beam c = false := by
  rw [Bool.eq_false_iff]
  intro htrue
  obtain ⟨x, _, b, hb, hxb⟩ := (overlaps_iff beam c).mp htrue
  have hbnil : b = [] := List.flatten_eq_nil_iff.mp h b hb
  rw [hbnil] at hxb
  simp at hxb

theorem stageCands_one (cols : List String) (beam : List (List String)) :
    stageCands cols beam 1 = cols.map (fun x => [x]) := by
  simp [stageCands, combosL_one]

theorem mem_stageCands_two {r : Nat} (h2 : 2 ≤ r) (cols : List String)
    (beam : List (List String)) (c : List String) :
    c ∈ stageCands cols beam r ↔
      c.Sublist cols ∧ c.length = r ∧ ∃ x ∈ c, ∃ b ∈ beam, x ∈ b := by
  have hne : ¬ r = 1 := by omega
  unfold stageCands
  rw [if_neg hne]
  rw [List.mem_filter]
  rw [mem_combosL, overlaps_iff]
  tauto

theorem stageCands_eq_nil_of_flatten_nil {r : Nat} (h2 : 2 ≤ r)
    (cols : List String) {beam : List (List String)}
    (h : beam.flatten = []) : stageCands cols beam r = [] := by
  have hne : ¬ r = 1 := by omega
  unfold stageCands
  rw [if_neg hne]
  rw [List.filter_eq_nil_iff]
  intro c _
  simp [overlaps_eq_false_of_flatten_nil h]

theorem runningBestFrom_append (cnt : Nat)
    (l1 l2 : List (List String × Nat)) :
    runningBestFrom cnt (l1 ++ l2)
      = runningBestFrom (runningBestFrom cnt l1) l2 := by
  simp [runningBestFrom, List.foldl_append]

theorem runFrom_count (rows : List Row) (cols : List String)
    (total topN : Nat) :
    ∀ (sizes : List Nat) (best : List String) (cnt : Nat)
      (beam : List (List String)),
      (runFrom rows cols total topN sizes best cnt beam).count
        = runningBestFrom cnt
            (allEvals (runFrom rows cols total topN sizes best cnt beam)) := by
  intro sizes
  induction sizes with
  | nil => intro best cnt beam; simp [runFrom, allEvals, runningBestFrom]
  | cons r rs ih =>
    intro best cnt beam
    simp only [runFrom]
    by_cases h1 : 2 ≤ r ∧ beam.flatten = []
    · rw [if_pos h1]
      simp [allEvals, runningBestFrom]
    · rw [if_neg h1]
      by_cases h2 : 2 ≤ r ∧ stageCands cols beam r = []
      · rw [if_pos h2]
        simp [allEvals, runningBestFrom]
      · rw [if_neg h2]
        by_cases h3 :
            (evalCandidates rows total (stageCands cols beam r) best cnt).early
        · rw [if_pos h3]
          simp only [allEvals, List.map_cons, List.map_nil,
            List.flatten_cons, List.flatten_nil, List.append_nil]
          exact evalCandidates_count_fold rows total _ best cnt
        · rw [if_neg (by simpa using h3)]
          simp only [allEvals, List.map_cons, List.flatten_cons]
          rw [runningBestFrom_append]
          rw [← evalCandidates_count_fold rows total _ best cnt]
          exact ih _ _ _

theorem runFrom_best_mem (rows : List Row) (cols : List String)
    (total topN : Nat) :
    ∀ (sizes : List Nat) (best : List String) (cnt : Nat)
      (beam : List (List String)),
      ((runFrom rows cols total topN sizes best cnt beam).best = best ∧
        (runFrom rows cols total topN sizes best cnt beam).count = cnt) ∨
      ((runFrom rows cols total topN sizes best cnt beam).best,
        (runFrom rows cols total topN sizes best cnt beam).count)
          ∈ allEvals (runFrom rows cols total topN sizes best cnt beam) := by
  intro sizes
  induction sizes with
  | nil => intro best cnt beam; left; simp [runFrom]
  | cons r rs ih =>
    intro best cnt beam
    simp only [runFrom]
    by_cases h1 : 2 ≤ r ∧ beam.flatten = []
    · left; rw [if_pos h1]; exact ⟨rfl, rfl⟩
    · rw [if_neg h1]
      by_cases h2 : 2 ≤ r ∧ stageCands cols beam r = []
      · left; rw [if_pos h2]; exact ⟨rfl, rfl⟩
      · rw [if_neg h2]
        by_cases h3 :
            (evalCandidates rows total (stageCands cols beam r) best cnt).early
        · rw [if_pos h3]
          rcases evalCandidates_best_mem rows total (stageCands cols beam r)
              best cnt with ⟨hb, hcnt⟩ | hmem
          · left; exact ⟨hb, hcnt⟩
          · right
            simpa [allEvals] using hmem
        · rw [if_neg (by simpa using h3)]
          rcases ih (evalCandidates rows total (stageCands cols beam r)
                best cnt).best
              (evalCandidates rows total (stageCands cols beam r)
                best cnt).bestCount (selectBeam (evalCandidates rows total
                (stageCands cols beam r) best cnt).evals topN)
              with ⟨hb, hcnt⟩ | hmem
          · rcases evalCandidates_best_mem rows total (stageCands cols beam r)
                best cnt with ⟨hb', hcnt'⟩ | hmem'
            · left
              rw [hb, hcnt]
              exact ⟨hb', hcnt'⟩
            · right
              simp only [allEvals, List.map_cons, List.flatten_cons,
                List.mem_append]
              left
              rw [hb, hcnt]
              exact hmem'
          · right
            simp only [allEvals, List.map_cons, List.flatten_cons,
              List.mem_append]
            right
            simpa [allEvals] using hmem

theorem runFrom_beamAfter (rows : List Row) (cols : List String)
    (total topN : Nat) :
    ∀ (sizes : List Nat) (best : List String) (cnt : Nat)
      (beam : List (List String)),
      ∀ s ∈ (runFrom rows cols total topN sizes best cnt beam).stages,
        ∀ B, s.beamAfter = some B →
          B = selectBeam s.evals topN ∧
          s.evals = s.candidates.map (fun c => (c, distinctCount rows c)) := by
  intro sizes
  induction sizes with
  | nil => intro best cnt beam s hs; simp [runFrom] at hs
  | cons r rs ih =>
    intro best cnt beam s hs B hB
    simp only [runFrom] at hs
    by_cases h1 : 2 ≤ r ∧ beam.flatten = []
    · rw [if_pos h1] at hs
      simp only [List.mem_singleton] at hs
      subst hs
      simp at hB
    · rw [if_neg h1] at hs
      by_cases h2 : 2 ≤ r ∧ stageCands cols beam r = []
      · rw [if_pos h2] at hs
        simp only [List.mem_singleton] at hs
        subst hs
        simp at hB
      · rw [if_neg h2] at hs
        by_cases h3 :
            (evalCandidates rows total (stageCands cols beam r) best cnt).early
        · rw [if_pos h3] at hs
          simp only [List.mem_singleton] at hs
          subst hs
          simp at hB
        · rw [if_neg (by simpa using h3)] at hs
          simp only [List.mem_cons] at hs
          rcases hs with rfl | hs
          · simp only [Option.some.injEq] at hB
            subst hB
            refine ⟨rfl, ?_⟩
            exact evalCandidates_not_early_evals rows total _ best cnt
              (by simpa using h3)
          · exact ih _ _ _ s hs B hB

theorem runFrom_candidates (rows : List Row) (cols : List String)
    (total topN : Nat) :
    ∀ (sizes : List Nat) (best : List String) (cnt : Nat)
      (beam : List (List String)),
      ∀ s ∈ (runFrom rows cols total topN sizes best cnt beam).stages,
        s.candidates = stageCands cols s.prevBeam s.size := by
  intro sizes
  induction sizes with
  | nil => intro best cnt beam s hs; simp [runFrom] at hs
  | cons r rs ih =>
    intro best cnt beam s hs
    simp only [runFrom] at hs
    by_cases h1 : 2 ≤ r ∧ beam.flatten = []
    · rw [if_pos h1] at hs
      simp only [List.mem_singleton] at hs
      subst hs
      exact (stageCands_eq_nil_of_flatten_nil h1.1 cols h1.2).symm
    · rw [if_neg h1] at hs
      by_cases h2 : 2 ≤ r ∧ stageCands cols beam r = []
      · rw [if_pos h2] at hs
        simp only [List.mem_singleton] at hs
        subst hs
        exact h2.2.symm
      · rw [if_neg h2] at hs
        by_cases h3 :
            (evalCandidates rows total (stageCands cols beam r) best cnt).early
        · rw [if_pos h3] at hs
          simp only [List.mem_singleton] at hs
          subst hs
          rfl
        · rw [if_neg (by simpa using h3)] at hs
          simp only [List.mem_cons] at hs
          rcases hs with rfl | hs
          · rfl
          · exact ih _ _ _ s hs

theorem getLast?_cons_ne {α : Type} (a : α) {l : List α} (h : l ≠ []) :
    (a :: l).getLast? = l.getLast? := by
  cases l with
  | nil => exact absurd rfl h
  | cons b bs => exact List.getLast?_cons_cons

theorem runFrom_emptyBeam (rows : List Row) (cols : List String)
    (total topN : Nat) :
    ∀ (sizes : List Nat) (best : List String) (cnt : Nat)
      (beam : List (List String)),
      ∀ s ∈ (runFrom rows cols total topN sizes best cnt beam).stages,
        2 ≤ s.size → s.prevBeam = [] →
          s.candidates = [] ∧ s.evals = [] ∧ s.beamAfter = none ∧
          (runFrom rows cols total topN sizes best cnt beam).stages.getLast?
            = some s ∧
          (runFrom rows cols total topN sizes best cnt beam).reason
            = StopReason.noCandidates := by
  intro sizes
  induction sizes with
  | nil => intro best cnt beam s hs; simp [runFrom] at hs
  | cons r rs ih =>
    intro best cnt beam s hs hsize hprev
    simp only [runFrom] at hs ⊢
    by_cases h1 : 2 ≤ r ∧ beam.flatten = []
    · rw [if_pos h1] at hs ⊢
      simp only [List.mem_singleton] at hs
      subst hs
      exact ⟨rfl, rfl, rfl, rfl, rfl⟩
    · rw [if_neg h1] at hs ⊢
      by_cases h2 : 2 ≤ r ∧ stageCands cols beam r = []
      · rw [if_pos h2] at hs ⊢
        simp only [List.mem_singleton] at hs
        subst hs
        exact ⟨rfl, rfl, rfl, rfl, rfl⟩
      · rw [if_neg h2] at hs ⊢
        by_cases h3 :
            (evalCandidates rows total (stageCands cols beam r) best cnt).early
        · rw [if_pos h3] at hs ⊢
          simp only [List.mem_singleton] at hs
          subst hs
          exfalso
          simp only [StageLog.prevBeam] at hprev
          subst hprev
          simp only [StageLog.size] at hsize
          exact h1 ⟨hsize, rfl⟩
        · rw [if_neg (by simpa using h3)] at hs ⊢
          simp only [List.mem_cons] at hs
          rcases hs with rfl | hs
          · exfalso
            simp only [StageLog.prevBeam] at hprev
            subst hprev
            simp only [StageLog.size] at hsize
            exact h1 ⟨hsize, rfl⟩
          · obtain ⟨g1, g2, g3, g4, g5⟩ := ih _ _ _ s hs hsize hprev
            refine ⟨g1, g2, g3, ?_, g5⟩
            have hne : (runFrom rows cols total topN rs
                (evalCandidates rows total (stageCands cols beam r)
                  best cnt).best
                (evalCandidates rows total (stageCands cols beam r)
                  best cnt).bestCount
                (selectBeam (evalCandidates rows total
                  (stageCands cols beam r) best cnt).evals topN)).stages
                  ≠ [] := by
              intro hnil
              rw [hnil] at hs
              simp at hs
            rw [getLast?_cons_ne _ hne]
            exact g4

theorem mem_stageCands_sublist {cols : List String}
    {beam : List (List String)} {r : Nat} {c : List String}
    (h : c ∈ stageCands cols beam r) : c.Sublist cols ∧ c.length = r := by
  unfold stageCands at h
  by_cases hr : r = 1
  · rw [if_pos hr] at h
    exact mem_combosL.mp h
  · rw [if_neg hr] at h
    exact mem_combosL.mp (List.mem_filter.mp h).1

theorem evalCandidates_bestCount_le (rows : List Row) :
    ∀ (cs : List (List String)) (best : List String) (cnt : Nat),
      cnt ≤ rows.length →
      (evalCandidates rows rows.length cs best cnt).bestCount
        ≤ rows.length := by
  intro cs
  induction cs with
  | nil => intro best cnt h; simpa [evalCandidates] using h
  | cons c cs ih =>
    intro best cnt h
    have hn : distinctCount rows c ≤ rows.length := distinctCount_le_length _ _
    simp only [evalCandidates]
    by_cases hc :
        (if cnt < distinctCount rows c then distinctCount rows c else cnt)
          = rows.length
    · rw [if_pos hc]
      exact le_of_eq hc
    · rw [if_neg hc]
      apply ih
      rw [ite_eq_max]
      omega

theorem runFrom_perfect (rows : List Row) (cols : List String) (topN : Nat)
    (htop : 1 ≤ topN) (hperf : distinctCount rows cols = rows.length) :
    ∀ (k r : Nat) (best : List String) (cnt : Nat)
      (beam : List (List String)),
      1 ≤ r → r + k = cols.length + 1 → 1 ≤ k → cnt ≤ rows.length →
      (2 ≤ r → beam ≠ [] ∧ ∀ b ∈ beam, b ≠ [] ∧ b.Sublist cols) →
      (runFrom rows cols rows.length topN (List.range' r k)
          best cnt beam).count = rows.length ∧
      (runFrom rows cols rows.length topN (List.range' r k)
          best cnt beam).reason = StopReason.perfectKey := by
  intro k
  induction k with
  | zero => intro r best cnt beam _ _ hk; omega
  | succ k ihk =>
    intro r best cnt beam hr hsum hk hcnt hbeam
    have hrlen : r ≤ cols.length := by omega
    have hrange : List.range' r (k + 1) = r :: List.range' (r + 1) k := rfl
    rw [hrange]
    simp only [runFrom]
    have hA : ¬ (2 ≤ r ∧ beam.flatten = []) := by
      rintro ⟨h2, hfl⟩
      obtain ⟨hbne, hmem⟩ := hbeam h2
      obtain ⟨b, hb⟩ := List.exists_mem_of_ne_nil _ hbne
      exact (hmem b hb).1 (List.flatten_eq_nil_iff.mp hfl b hb)
    rw [if_neg hA]
    have hB : stageCands cols beam r ≠ [] := by
      by_cases hr1 : r = 1
      · subst hr1
        rw [stageCands_one]
        have hcne : cols ≠ [] := by
          intro hnil
          have h0 : cols.length = 0 := by rw [hnil]; rfl
          omega
        simpa using hcne
      · have h2 : 2 ≤ r := by omega
        obtain ⟨hbne, hmem⟩ := hbeam h2
        obtain ⟨b, hb⟩ := List.exists_mem_of_ne_nil _ hbne
        obtain ⟨x, hx⟩ := List.exists_mem_of_ne_nil _ (hmem b hb).1
        have hxcols : x ∈ cols := (hmem b hb).2.subset hx
        have hsing : [x].Sublist cols := List.singleton_sublist.mpr hxcols
        obtain ⟨t, ht1, ht2, ht3⟩ :=
          sublist_extend_to hsing r (by simpa using hr) hrlen
        intro hnil
        have htmem : t ∈ stageCands cols beam r :=
          (mem_stageCands_two h2 cols beam t).mpr
            ⟨ht2, ht3, x, ht1.subset (by simp), b, hb, hx⟩
        rw [hnil] at htmem
        simp at htmem
    rw [if_neg (fun h => hB h.2)]
    by_cases h3 :
        (evalCandidates rows rows.length (stageCands cols beam r)
          best cnt).early
    · rw [if_pos h3]
      exact ⟨evalCandidates_early_total rows rows.length _ best cnt h3, rfl⟩
    · rw [if_neg h3]
      by_cases hk0 : k = 0
      · exfalso
        have hrn : r = cols.length := by omega
        have hcolsmem : cols ∈ stageCands cols beam r := by
          by_cases hr1 : r = 1
          · subst hr1
            rw [stageCands_one]
            have hlen1 : cols.length = 1 := by omega
            obtain ⟨a, ha⟩ := List.length_eq_one.mp hlen1
            rw [ha]
            simp
          · have h2 : 2 ≤ r := by omega
            obtain ⟨hbne, hmem⟩ := hbeam h2
            obtain ⟨b, hb⟩ := List.exists_mem_of_ne_nil _ hbne
            obtain ⟨x, hx⟩ := List.exists_mem_of_ne_nil _ (hmem b hb).1
            have hxcols : x ∈ cols := (hmem b hb).2.subset hx
            exact (mem_stageCands_two h2 cols beam cols).mpr
              ⟨List.Sublist.refl _, hrn.symm, x, hxcols, b, hb, hx⟩
        exact h3 (evalCandidates_early_of_mem rows rows.length rfl
          (stageCands cols beam r) best cnt cols hcnt hcolsmem hperf)
      · have hk1 : 1 ≤ k := by omega
        have hevals :
            (evalCandidates rows rows.length (stageCands cols beam r)
                best cnt).evals
              = (stageCands cols beam r).map
                  (fun c => (c, distinctCount rows c)) :=
          evalCandidates_not_early_evals rows rows.length _ best cnt
            (by simpa using h3)
        have hbinv : 2 ≤ r + 1 →
            selectBeam (evalCandidates rows rows.length
                (stageCands cols beam r) best cnt).evals topN ≠ [] ∧
            ∀ b ∈ selectBeam (evalCandidates rows rows.length
                (stageCands cols beam r) best cnt).evals topN,
              b ≠ [] ∧ b.Sublist cols := by
          intro _
          constructor
          · apply selectBeam_ne_nil _ htop
            rw [hevals]
            simpa using hB
          · intro b hbmem
            obtain ⟨nn, hnn⟩ := selectBeam_mem hbmem
            rw [hevals] at hnn
            obtain ⟨c, hc, hceq⟩ := List.mem_map.mp hnn
            obtain ⟨hsub, hlen⟩ := mem_stageCands_sublist hc
            have hbc : c = b := congrArg Prod.fst hceq
            subst hbc
            refine ⟨?_, hsub⟩
            intro hbn
            rw [hbn] at hlen
            simp at hlen
            omega
        have hres := ihk (r + 1)
            (evalCandidates rows rows.length (stageCands cols beam r)
              best cnt).best
            (evalCandidates rows rows.length (stageCands cols beam r)
              best cnt).bestCount
            (selectBeam (evalCandidates rows rows.length
              (stageCands cols beam r) best cnt).evals topN)
            (by omega) (by omega) hk1
            (evalCandidates_bestCount_le rows _ best cnt hcnt) hbinv
        exact ⟨hres.1, hres.2⟩

end FindUnique

/-!
## Lemmas about the history importer model
-/

namespace StoreHist

theorem charListLe_total : ∀ a b : List Char,
    charListLe a b = true ∨ charListLe b a = true := by
  intro a
  induction a with
  | nil => intro b; left; cases b <;> rfl
  | cons x xs ih =>
    intro b
    cases b with
    | nil => right; rfl
    | cons y ys =>
      simp only [charListLe]
      by_cases hxy : x.toNat < y.toNat
      · left
        rw [if_pos hxy]
      · by_cases hyx : y.toNat < x.toNat
        · right
          rw [if_pos hyx]
        · rw [if_neg hxy, if_neg hyx, if_neg hyx, if_neg hxy]
          exact ih ys

theorem charListLe_trans : ∀ a b c : List Char,
    charListLe a b = true → charListLe b c = true →
    charListLe a c = true := by
  intro a
  induction a with
  | nil => intro b c _ _; cases c <;> rfl
  | cons x xs ih =>
    intro b c hab hbc
    cases b with
    | nil => simp [charListLe] at hab
    | cons y ys =>
      cases c with
      | nil => simp [charListLe] at hbc
      | cons z zs =>
        simp only [charListLe] at hab hbc ⊢
        by_cases hxy : x.toNat < y.toNat
        · by_cases hyz : y.toNat < z.toNat
          · rw [if_pos (by omega : x.toNat < z.toNat)]
          · rw [if_neg hyz] at hbc
            by_cases hzy : z.toNat < y.toNat
            · rw [if_pos hzy] at hbc
              exact absurd hbc (by simp)
            · rw [if_pos (by omega : x.toNat < z.toNat)]
        · rw [if_neg hxy] at hab
          by_cases hyx : y.toNat < x.toNat
          · rw [if_pos hyx] at hab
            exact absurd hab (by simp)
          · rw [if_neg hyx] at hab
            by_cases hyz : y.toNat < z.toNat
            · rw [if_pos (by omega : x.toNat < z.toNat)]
            · rw [if_neg hyz] at hbc
              by_cases hzy : z.toNat < y.toNat
              · rw [if_pos hzy] at hbc
                exact absurd hbc (by simp)
              · rw [if_neg hzy] at hbc
                rw [if_neg (by omega : ¬ x.toNat < z.toNat),
                  if_neg (by omega : ¬ z.toNat < x.toNat)]
                exact ih ys zs hab hbc

theorem strLe_total (a b : String) : strLe a b = true ∨ strLe b a = true :=
  charListLe_total a.toList b.toList

theorem strLe_trans {a b c : String} (h1 : strLe a b = true)
    (h2 : strLe b c = true) : strLe a c = true :=
  charListLe_trans a.toList b.toList c.toList h1 h2

theorem insertStr_perm (x : String) (l : List String) :
    (insertStr x l).Perm (x :: l) := by
  induction l with
  | nil => exact List.Perm.refl _
  | cons y ys ih =>
    rw [insertStr]
    by_cases hc : strLe x y = true
    · rw [if_pos hc]
    · rw [if_neg hc]
      exact (ih.cons y).trans (List.Perm.swap x y ys)

theorem insertStr_pairwise {x : String} {l : List String}
    (h : l.Pairwise (fun a b => strLe a b = true)) :
    (insertStr x l).Pairwise (fun a b => strLe a b = true) := by
  induction l with
  | nil => simp [insertStr]
  | cons y ys ih =>
    rw [List.pairwise_cons] at h
    rw [insertStr]
    by_cases hc : strLe x y = true
    · rw [if_pos hc]
      refine List.Pairwise.cons ?_ (List.Pairwise.cons h.1 h.2)
      intro z hz
      rcases List.mem_cons.mp hz with rfl | hz
      · exact hc
      · exact strLe_trans hc (h.1 z hz)
    · rw [if_neg hc]
      refine List.Pairwise.cons ?_ (ih h.2)
      intro z hz
      rcases List.mem_cons.mp ((insertStr_perm x ys).mem_iff.mp hz) with
        rfl | hz
      · rcases strLe_total y z with hyz | hzy
        · exact hyz
        · exact absurd hzy hc
      · exact h.1 z hz

theorem sortStrings_pairwise (l : List String) :
    (sortStrings l).Pairwise (fun a b => strLe a b = true) := by
  induction l with
  | nil => simp [sortStrings]
  | cons x xs ih => exact insertStr_pairwise ih

theorem dedupFirstAux_eq_nil {seen : List (String × List String)} :
    ∀ {l : List CacheEntry}, (∀ e ∈ l, keyOf e ∈ seen) →
      dedupFirstAux seen l = [] := by
  intro l
  induction l with
  | nil => intro _; rfl
  | cons e es ih =>
    intro h
    rw [dedupFirstAux, if_pos (h e (List.mem_cons_self e es))]
    exact ih (fun e2 he2 => h e2 (List.mem_cons_of_mem e he2))

theorem dedupFirstAux_congr_seen :
    ∀ (l : List CacheEntry) (seen seen2 : List (String × List String)),
      (∀ k, k ∈ seen ↔ k ∈ seen2) →
      dedupFirstAux seen l = dedupFirstAux seen2 l := by
  intro l
  induction l with
  | nil => intro seen seen2 _; rfl
  | cons e es ih =>
    intro seen seen2 h
    rw [dedupFirstAux, dedupFirstAux]
    by_cases hc : keyOf e ∈ seen
    · rw [if_pos hc, if_pos ((h _).mp hc)]
      exact ih seen seen2 h
    · rw [if_neg hc, if_neg (fun h2 => hc ((h _).mpr h2))]
      refine congrArg (e :: ·) (ih _ _ ?_)
      intro k
      simp only [List.mem_cons]
      exact or_congr Iff.rfl (h k)

theorem dedupFirstAux_append :
    ∀ (l1 l2 : List CacheEntry) (seen : List (String × List String)),
      (∀ e ∈ l2, keyOf e ∈ l1.map keyOf ∨ keyOf e ∈ seen) →
      dedupFirstAux seen (l1 ++ l2) = dedupFirstAux seen l1 := by
  intro l1
  induction l1 with
  | nil =>
    intro l2 seen h
    simp only [List.nil_append]
    exact dedupFirstAux_eq_nil (fun e he => by
      rcases h e he with hk | hk
      · simp at hk
      · exact hk)
  | cons e es ih =>
    intro l2 seen h
    simp only [List.cons_append]
    rw [dedupFirstAux, dedupFirstAux]
    by_cases hc : keyOf e ∈ seen
    · rw [if_pos hc, if_pos hc]
      apply ih
      intro e2 he2
      rcases h e2 he2 with hk | hk
      · simp only [List.map_cons, List.mem_cons] at hk
        rcases hk with hk | hk
        · exact Or.inr (hk ▸ hc)
        · exact Or.inl hk
      · exact Or.inr hk
    · rw [if_neg hc, if_neg hc]
      refine congrArg (e :: ·) (ih l2 (keyOf e :: seen) ?_)
      intro e2 he2
      rcases h e2 he2 with hk | hk
      · simp only [List.map_cons, List.mem_cons] at hk
        rcases hk with hk | hk
        · exact Or.inr (by simp [hk])
        · exact Or.inl hk
      · exact Or.inr (List.mem_cons_of_mem _ hk)

theorem mem_keys_dedupFirstAux :
    ∀ (l : List CacheEntry) (seen : List (String × List String)) (k : String × List String),
      k ∈ l.map keyOf →
      k ∈ (dedupFirstAux seen l).map keyOf ∨ k ∈ seen := by
  intro l
  induction l with
  | nil => intro seen k h; simp at h
  | cons e es ih =>
    intro seen k h
    simp only [List.map_cons, List.mem_cons] at h
    rw [dedupFirstAux]
    by_cases hc : keyOf e ∈ seen
    · rw [if_pos hc]
      rcases h with rfl | h
      · exact Or.inr hc
      · exact ih seen k h
    · rw [if_neg hc]
      rcases h with rfl | h
      · left
        simp
      · rcases ih (keyOf e :: seen) k h with hk | hk
        · left
          simp only [List.map_cons, List.mem_cons]
          exact Or.inr hk
        · rcases List.mem_cons.mp hk with rfl | hk
          · left
            simp
          · exact Or.inr hk

theorem dedupFirstAux_of_nodup :
    ∀ (l : List CacheEntry) (seen : List (String × List String)),
      (l.map keyOf).Nodup → (∀ e ∈ l, keyOf e ∉ seen) →
      dedupFirstAux seen l = l := by
  intro l
  induction l with
  | nil => intro seen _ _; rfl
  | cons e es ih =>
    intro seen hnd hseen
    simp only [List.map_cons, List.nodup_cons] at hnd
    rw [dedupFirstAux, if_neg (hseen e (List.mem_cons_self e es))]
    refine congrArg (e :: ·) (ih _ hnd.2 ?_)
    intro e2 he2
    simp only [List.mem_cons, not_or]
    constructor
    · intro hk
      exact hnd.1 (hk ▸ List.mem_map_of_mem keyOf he2)
    · exact hseen e2 (List.mem_cons_of_mem e he2)

theorem dedupFirst_keys_nodup :
    ∀ (l : List CacheEntry) (seen : List (String × List String)),
      ((dedupFirstAux seen l).map keyOf).Nodup ∧
      ∀ k ∈ (dedupFirstAux seen l).map keyOf, k ∉ seen := by
  intro l
  induction l with
  | nil => intro seen; constructor <;> simp [dedupFirstAux]
  | cons e es ih =>
    intro seen
    rw [dedupFirstAux]
    by_cases hc : keyOf e ∈ seen
    · rw [if_pos hc]
      exact ih seen
    · rw [if_neg hc]
      obtain ⟨h1, h2⟩ := ih (keyOf e :: seen)
      constructor
      · simp only [List.map_cons, List.nodup_cons]
        exact ⟨fun hk => (h2 _ hk) (List.mem_cons_self _ _), h1⟩
      · intro k hk
        simp only [List.map_cons, List.mem_cons] at hk
        rcases hk with rfl | hk
        · exact hc
        · exact fun hks => (h2 k hk) (List.mem_cons_of_mem _ hks)

theorem dedupFirst_idem (l : List CacheEntry) :
    dedupFirst (dedupFirst l) = dedupFirst l := by
  unfold dedupFirst
  exact dedupFirstAux_of_nodup _ [] (dedupFirst_keys_nodup l []).1
    (fun e _ => by simp)

theorem dedupFirst_append_subsumed {l l2 : List CacheEntry}
    (h : ∀ e ∈ l2, keyOf e ∈ l.map keyOf) :
    dedupFirst (dedupFirst l ++ l2) = dedupFirst l := by
  unfold dedupFirst
  rw [dedupFirstAux_append (dedupFirstAux [] l) l2 [] ?side]
  case side =>
    intro e he
    rcases mem_keys_dedupFirstAux l [] (keyOf e) (h e he) with hk | hk
    · exact Or.inl hk
    · simp at hk
  exact congrArg (dedupFirstAux []) rfl ▸ dedupFirst_idem l

theorem dedupFirst_self_append_of_nodup {l : List CacheEntry}
    (h : (l.map keyOf).Nodup) : dedupFirst (l ++ l) = l := by
  unfold dedupFirst
  rw [dedupFirstAux_append l l [] (fun e he => Or.inl (List.mem_map_of_mem keyOf he))]
  exact dedupFirstAux_of_nodup l [] h (fun e _ => by simp)

theorem find?_key_dedupFirstAux (k : String × List String) :
    ∀ (l : List CacheEntry) (seen : List (String × List String)), k ∉ seen →
      (dedupFirstAux seen l).find? (fun e => decide (keyOf e = k))
        = l.find? (fun e => decide (keyOf e = k)) := by
  intro l
  induction l with
  | nil => intro seen _; rfl
  | cons e es ih =>
    intro seen hk
    rw [dedupFirstAux]
    by_cases hc : keyOf e ∈ seen
    · rw [if_pos hc]
      have hne : ¬ keyOf e = k := fun h => hk (h ▸ hc)
      rw [List.find?_cons_of_neg _ (by simpa using hne)]
      exact ih seen hk
    · rw [if_neg hc]
      by_cases hek : keyOf e = k
      · rw [List.find?_cons_of_pos _ (by simpa using hek),
          List.find?_cons_of_pos _ (by simpa using hek)]
      · rw [List.find?_cons_of_neg _ (by simpa using hek),
          List.find?_cons_of_neg _ (by simpa using hek)]
        exact ih (keyOf e :: seen) (by
          simp only [List.mem_cons, not_or]
          exact ⟨fun h => hek h.symm, hk⟩)

theorem find?_key_dedupFirst (l : List CacheEntry)
    (k : String × List String) :
    (dedupFirst l).find? (fun e => decide (keyOf e = k))
      = l.find? (fun e => decide (keyOf e = k)) :=
  find?_key_dedupFirstAux k l [] (by simp)

end StoreHist

/-!
## The claims about the search
-/

namespace FindUnique

/-- C1, counterexample to the claim as stated.  On the dataset `cexRows`
over columns `A`, `B`, `C` with beam width `1`, the pair `{A, B}` is a
perfect key (its distinct count equals the row count 6), so the claimed
property requires termination at or before the stage of size 2; but the
run's trace contains stages of sizes 1, 2 and 3: beam pruning keeps only
`{C}` after stage 1, which excludes `{A, B}` from stage 2, and the perfect
key is only reached at stage 3 as the full column set.  (The returned count
is still the row count.) -/
theorem perfect_key_stage_cex :
    distinctCount cexRows ["A", "B"] = cexRows.length ∧
    (["A", "B"] : List String).length = 2 ∧
    (run cexRows cexCols 1).stages.map StageLog.size = [1, 2, 3] ∧
    (run cexRows cexCols 1).reason = StopReason.perfectKey ∧
    (run cexRows cexCols 1).count = cexRows.length := by
  refine ⟨by decide, by decide, by decide, by decide, by decide⟩

/-- C1 (amended): for every dataset with duplicate-free columns and beam
width at least 1, if some nonempty column combination drawn from the
columns has distinct count equal to the total row count, then the search
terminates by short-circuiting an evaluation loop (reason `PerfectKey`) and
returns a count equal to the total row count — but possibly at a stage
later than that combination's size, because beam pruning may exclude the
combination itself (see the counterexample). -/
theorem perfect_key_termination_amended (rows : List Row)
    (cols : List String) (topN : Nat) (htop : 1 ≤ topN)
    (c : List String) (hne : c ≠ []) (hsub : ∀ x ∈ c, x ∈ cols)
    (hperf : distinctCount rows c = rows.length) :
    (run rows cols topN).count = rows.length ∧
    (run rows cols topN).reason = StopReason.perfectKey := by
  have hcols : distinctCount rows cols = rows.length :=
    le_antisymm (distinctCount_le_length _ _)
      (hperf ▸ distinctCount_mono rows hsub)
  have hn1 : 1 ≤ cols.length := by
    obtain ⟨x, hx⟩ := List.exists_mem_of_ne_nil _ hne
    exact List.length_pos.mpr (List.ne_nil_of_mem (hsub x hx))
  unfold run
  exact runFrom_perfect rows cols topN htop hcols cols.length 1 [] 0 []
    le_rfl (by omega) hn1 (Nat.zero_le _) (fun h => absurd h (by omega))

/-- Witness for C1 (amended): on the two-row dataset `wRows` over `A`, `B`
where `A` alone is a perfect key, the search returns count 2 with reason
`PerfectKey`. -/
theorem perfect_key_termination_amended_witness :
    (run wRows wCols 1).count = wRows.length ∧
    (run wRows wCols 1).reason = StopReason.perfectKey :=
  perfect_key_termination_amended wRows wCols 1 (by decide) ["A"]
    (by decide) (by decide) (by decide)

/-- C2: the returned count is the running best over all evaluations of the
run (the fold of `max` starting from 0), and the running best is
non-decreasing along the evaluation sequence: appending one evaluation
never decreases it, and changes it only by taking exactly that
evaluation's strictly larger count. -/
theorem running_best_monotone (rows : List Row) (cols : List String)
    (topN : Nat) :
    (run rows cols topN).count
        = runningBest (allEvals (run rows cols topN)) ∧
    ∀ (p : List (List String × Nat)) (e : List String × Nat),
      (p ++ [e]) <+: allEvals (run rows cols topN) →
      runningBest p ≤ runningBest (p ++ [e]) ∧
      (runningBest (p ++ [e]) ≠ runningBest p →
        runningBest (p ++ [e]) = e.2) := by
  have key : ∀ (p : List (List String × Nat)) (e : List String × Nat),
      runningBest (p ++ [e]) = max (runningBest p) e.2 := by
    intro p e
    simp [runningBest, runningBestFrom, List.foldl_append]
  constructor
  · exact runFrom_count rows cols rows.length topN _ [] 0 []
  · intro p e _
    rw [key]
    refine ⟨le_max_left _ _, ?_⟩
    intro hne
    rcases Nat.le_total (runningBest p) e.2 with h | h
    · exact Nat.max_eq_right h
    · exact absurd (Nat.max_eq_left h) hne

/-- Witness for C2: on the counterexample dataset, the first evaluation of
the run is `(["A"], 2)`, and appending it to the empty prefix raises the
running best from 0 to 2. -/
theorem running_best_monotone_witness :
    runningBest [] ≤ runningBest ([] ++ [(["A"], 2)]) ∧
    (runningBest ([] ++ [(["A"], 2)]) ≠ runningBest [] →
      runningBest ([] ++ [(["A"], 2)]) = 2) :=
  (running_best_monotone cexRows cexCols 1).2 [] (["A"], 2) (by decide)

/-- C4: in every run, a stage of size 1 evaluates exactly the single-column
combinations, in column order; and at every stage of size `r > 1` with a
non-empty previous beam, the candidate list contains a combination exactly
when it is a size-`r` sub-selection of the full column list that shares at
least one column with at least one combination of the previous stage's
beam. -/
theorem candidate_generation_overlap (rows : List Row) (cols : List String)
    (topN : Nat) :
    ∀ s ∈ (run rows cols topN).stages,
      (s.size = 1 → s.candidates = cols.map (fun x => [x])) ∧
      (2 ≤ s.size → s.prevBeam ≠ [] →
        ∀ c : List String, c ∈ s.candidates ↔
          (c.Sublist cols ∧ c.length = s.size ∧
            ∃ x ∈ c, ∃ b ∈ s.prevBeam, x ∈ b)) := by
  intro s hs
  have hc := runFrom_candidates rows cols rows.length topN _ [] 0 [] s hs
  constructor
  · intro h1
    rw [hc, h1, stageCands_one]
  · intro h2 _ c
    rw [hc]
    exact mem_stageCands_two h2 cols s.prevBeam c

/-- Witness for C4: at the size-2 stage of the run on `cexRows` with beam
width 1, the combination `["A", "C"]` is a candidate exactly because it is
a size-2 sub-selection of the columns sharing the column `C` with the beam
combination `["C"]`. -/
theorem candidate_generation_overlap_witness :
    (["A", "C"] : List String) ∈ cexStage2.candidates ↔
      ((["A", "C"] : List String).Sublist cexCols ∧
        (["A", "C"] : List String).length = cexStage2.size ∧
        ∃ x ∈ (["A", "C"] : List String),
          ∃ b ∈ cexStage2.prevBeam, x ∈ b) :=
  (candidate_generation_overlap cexRows cexCols 1 cexStage2 (by decide)).2
    (by decide) (by decide) ["A", "C"]

/-- C5: in every run, every beam carried to the next stage is obtained by
stable-sorting the stage's evaluations descending by count, truncating to
`top_n_to_carry_over`, and keeping the combinations; the stage's
evaluations are the candidate list in the generator's enumeration order
paired with their distinct counts; and the stable sort is a permutation of
the evaluations that is pairwise non-increasing in count and preserves, for
every count value, the encounter order of the entries bearing it. -/
theorem beam_selector_sorted_stable (rows : List Row) (cols : List String)
    (topN : Nat) :
    ∀ s ∈ (run rows cols topN).stages, ∀ B, s.beamAfter = some B →
      B = ((sortDesc s.evals).take topN).map Prod.fst ∧
      s.evals = s.candidates.map (fun c => (c, distinctCount rows c)) ∧
      (sortDesc s.evals).Perm s.evals ∧
      (sortDesc s.evals).Pairwise (fun p q => q.2 ≤ p.2) ∧
      ∀ n, (sortDesc s.evals).filter (fun p => p.2 == n)
        = s.evals.filter (fun p => p.2 == n) := by
  intro s hs B hB
  obtain ⟨h1, h2⟩ :=
    runFrom_beamAfter rows cols rows.length topN _ [] 0 [] s hs B hB
  exact ⟨h1, h2, sortDesc_perm _, sortDesc_pairwise _,
    fun n => sortDesc_filter _ n⟩

/-- Witness for C5: the beam after stage 1 of the run on `cexRows` with
beam width 1 is `[["C"]]`, the head of the sorted evaluations. -/
theorem beam_selector_sorted_stable_witness :
    ([["C"]] : List (List String))
        = ((sortDesc cexStage1.evals).take 1).map Prod.fst ∧
    cexStage1.evals = cexStage1.candidates.map
      (fun c => (c, distinctCount cexRows c)) ∧
    (sortDesc cexStage1.evals).Perm cexStage1.evals ∧
    (sortDesc cexStage1.evals).Pairwise (fun p q => q.2 ≤ p.2) ∧
    ∀ n, (sortDesc cexStage1.evals).filter (fun p => p.2 == n)
      = cexStage1.evals.filter (fun p => p.2 == n) :=
  beam_selector_sorted_stable cexRows cexCols 1 cexStage1 (by decide)
    [["C"]] (by decide)

/-- C6: in every run, every beam carried to the next stage has at most
`top_n_to_carry_over` combinations. -/
theorem beam_bound (rows : List Row) (cols : List String) (topN : Nat) :
    ∀ s ∈ (run rows cols topN).stages, ∀ B, s.beamAfter = some B →
      B.length ≤ topN := by
  intro s hs B hB
  obtain ⟨h1, _⟩ :=
    runFrom_beamAfter rows cols rows.length topN _ [] 0 [] s hs B hB
  rw [h1]
  exact selectBeam_length _ _

/-- Witness for C6: the beam after stage 1 of the run on `cexRows` with
beam width 1 has one combination. -/
theorem beam_bound_witness : ([["C"]] : List (List String)).length ≤ 1 :=
  beam_bound cexRows cexCols 1 cexStage1 (by decide) [["C"]] (by decide)

/-- C7: on every termination path the search returns the accumulated best:
with no columns the run returns the empty combination with count 0 and an
empty trace; the returned count is always the running best over all
evaluations; the returned pair is either the untouched initial state
(empty combination, count 0) or one of the run's evaluations; and whenever
a stage of size `> 1` starts from an empty beam, that stage generates no
candidates, evaluates nothing, selects no beam, is the last stage of the
trace, and the run stops with reason `NoCandidates` — it never falls back
to the full column set. -/
theorem termination_outputs (rows : List Row) (cols : List String)
    (topN : Nat) :
    (cols = [] → run rows cols topN = ⟨[], 0, [], StopReason.exhausted⟩) ∧
    (run rows cols topN).count
        = runningBest (allEvals (run rows cols topN)) ∧
    (((run rows cols topN).best = [] ∧ (run rows cols topN).count = 0) ∨
      ((run rows cols topN).best, (run rows cols topN).count)
        ∈ allEvals (run rows cols topN)) ∧
    ∀ s ∈ (run rows cols topN).stages, 2 ≤ s.size → s.prevBeam = [] →
      s.candidates = [] ∧ s.evals = [] ∧ s.beamAfter = none ∧
      (run rows cols topN).stages.getLast? = some s ∧
      (run rows cols topN).reason = StopReason.noCandidates := by
  refine ⟨?_, ?_, ?_, ?_⟩
  · intro h
    subst h
    rfl
  · exact runFrom_count rows cols rows.length topN _ [] 0 []
  · exact runFrom_best_mem rows cols rows.length topN _ [] 0 []
  · exact runFrom_emptyBeam rows cols rows.length topN _ [] 0 []

/-- Witness for C7: with beam width 0 on the four-row dataset `w4Rows`,
the beam after stage 1 is empty, and stage 2 is a final `NoCandidates`
stage that generates nothing. -/
theorem termination_outputs_witness :
    w4Stage2.candidates = [] ∧ w4Stage2.evals = [] ∧
    w4Stage2.beamAfter = none ∧
    (run w4Rows wCols 0).stages.getLast? = some w4Stage2 ∧
    (run w4Rows wCols 0).reason = StopReason.noCandidates :=
  (termination_outputs w4Rows wCols 0).2.2.2 w4Stage2 (by decide)
    (by decide) (by decide)

end FindUnique

/-!
## The claims about the history importer and the caching Evaluator
-/

namespace StoreHist

/-- C8, counterexample to the claim as stated.  When no store exists yet,
the import writes the parsed records without any deduplication (line 112 of
`store_hist.py`), so a history file with two records for the same key
`("d", ["a"])` — counts 4 and 5 — produces a fresh store holding both;
running the same import a second time deduplicates keep-first and drops the
count-5 record, changing the store's set of keyed records. -/
theorem preload_idempotence_cex :
    (∃ e ∈ dupStore1, keyOf e = ("d", ["a"]) ∧ e.num_unique = 5) ∧
    (∀ e ∈ dupStore2, keyOf e = ("d", ["a"]) → e.num_unique ≠ 5) ∧
    dupStore1.length = 2 ∧ dupStore2.length = 1 ∧
    preload_cache_from_history (some dupFile) none "d" = some dupStore1 ∧
    preload_cache_from_history (some dupFile) (some dupStore1) "d"
      = some dupStore2 := by
  refine ⟨by decide, by decide, by decide, by decide, rfl, rfl⟩

/-- C8 (amended): the bulk-import merges by the key (dataset identifier,
column set), preferring already-present entries; running the import a
second time with the same history file and dataset identifier leaves the
store unchanged, provided the first run started from an existing store —
or, when the store is first created, provided the history file carries no
duplicate keys (otherwise the duplicate-keyed records are all written on
creation and only collapsed by the next run, as in the counterexample). -/
theorem preload_idempotence_amended (s : List CacheEntry)
    (file : Option (List (Option LogMatch))) (name : String) :
    preload_cache_from_history file
        (preload_cache_from_history file (some s) name) name
      = preload_cache_from_history file (some s) name ∧
    (((toEntries name (parse_history_log file)).map keyOf).Nodup →
      preload_cache_from_history file
          (preload_cache_from_history file none name) name
        = preload_cache_from_history file none name) ∧
    (∀ k, k ∈ s.map keyOf →
      ∀ st, preload_cache_from_history file (some s) name = some st →
        st.find? (fun e => decide (keyOf e = k))
          = s.find? (fun e => decide (keyOf e = k))) := by
  by_cases hp : parse_history_log file = []
  · have hid : ∀ st, preload_cache_from_history file st name = st := by
      intro st
      simp [preload_cache_from_history, hp]
    refine ⟨?_, fun _ => ?_, ?_⟩
    · rw [hid, hid]
    · rw [hid, hid]
    · intro k _ st hst
      rw [hid] at hst
      cases hst
      rfl
  · have hsome : ∀ t, preload_cache_from_history file (some t) name
        = some (dedupFirst (t ++ toEntries name (parse_history_log file))) := by
      intro t
      simp [preload_cache_from_history, if_neg hp]
    have hnone : preload_cache_from_history file none name
        = some (toEntries name (parse_history_log file)) := by
      simp [preload_cache_from_history, if_neg hp]
    refine ⟨?_, ?_, ?_⟩
    · rw [hsome s, hsome (dedupFirst (s ++ toEntries name (parse_history_log file)))]
      refine congrArg some (dedupFirst_append_subsumed ?_)
      intro e he
      exact List.mem_map_of_mem keyOf (List.mem_append_right s he)
    · intro hnd
      rw [hnone, hsome (toEntries name (parse_history_log file))]
      exact congrArg some (dedupFirst_self_append_of_nodup hnd)
    · intro k hk st hst
      rw [hsome s] at hst
      cases hst
      rw [find?_key_dedupFirst, List.find?_append]
      obtain ⟨e, he, hke⟩ := List.mem_map.mp hk
      cases hfind : s.find? (fun e => decide (keyOf e = k)) with
      | none =>
        exfalso
        have hnot := List.find?_eq_none.mp hfind e he
        simp only [decide_eq_true_eq] at hnot
        exact hnot hke
      | some v => simp [Option.or]

/-- Witness for C8 (amended): importing the duplicate-free history
`goodFile` into no pre-existing store is idempotent. -/
theorem preload_idempotence_amended_witness :
    preload_cache_from_history (some goodFile)
        (preload_cache_from_history (some goodFile) none "d") "d"
      = preload_cache_from_history (some goodFile) none "d" :=
  (preload_idempotence_amended dupStore1 (some goodFile) "d").2.1 (by decide)

/-- C9, counterexample to the claim as stated.  The parser performs no
validation of the percentage it captures: on the single-line history
`pctFile`, whose matched percentage text is `250.0`, the import writes a
record whose fraction is `250 / 100 = 5 / 2 > 1`.  (The count and the
sorted column set are as claimed.) -/
theorem import_fraction_cex :
    pctStore.map CacheEntry.unique_percentage = [250 / 100] ∧
    ¬ ((250 : ℚ) / 100 ≤ 1) ∧
    pctStore.map CacheEntry.columns = [["a"]] ∧
    pctStore.map CacheEntry.num_unique = [5] := by
  refine ⟨rfl, by norm_num, by decide, by decide⟩

/-- C9 (amended): every record the historical import writes has an integer
distinct count `≥ 0` and a column set in canonical ascending code-point
order; its distinct fraction is the parsed percentage divided by 100, which
lies in `[0, 1]` provided every matched line's percentage lies in
`[0, 100]` — the parser itself never validates this (see the
counterexample). -/
theorem import_record_invariants_amended (lines : List (Option LogMatch))
    (name : String) :
    (∀ e ∈ toEntries name (parse_history_log (some lines)),
      0 ≤ e.num_unique ∧
      e.columns.Pairwise (fun a b => strLe a b = true)) ∧
    ((∀ m ∈ lines.filterMap id, 0 ≤ m.pct ∧ m.pct ≤ 100) →
      ∀ e ∈ toEntries name (parse_history_log (some lines)),
        0 ≤ e.unique_percentage ∧ e.unique_percentage ≤ 1) := by
  have hshape : ∀ e ∈ toEntries name (parse_history_log (some lines)),
      ∃ m ∈ lines.filterMap id, e = ⟨name, (parseRecord m).1,
        (parseRecord m).2.1, (parseRecord m).2.2⟩ := by
    intro e he
    simp only [toEntries, parse_history_log, List.mem_map] at he
    obtain ⟨r, hr, heq⟩ := he
    obtain ⟨m, hm, hmr⟩ := hr
    exact ⟨m, hm, by rw [← heq, ← hmr]⟩
  constructor
  · intro e he
    obtain ⟨m, _, rfl⟩ := hshape e he
    exact ⟨Int.natCast_nonneg _, sortStrings_pairwise _⟩
  · intro hp e he
    obtain ⟨m, hm, rfl⟩ := hshape e he
    obtain ⟨h0, h1⟩ := hp m hm
    simp only [parseRecord]
    constructor
    · exact div_nonneg h0 (by norm_num)
    · rw [div_le_one (by norm_num : (0 : ℚ) < 100)]
      linarith

/-- Witness for C9 (amended): the first record imported from the
well-formed history `goodFile` — columns `["a", "b"]` sorted from the text
`"'b', 'a'"`, count 4, fraction `0 / 100` — satisfies all three
invariants. -/
theorem import_record_invariants_amended_witness :
    (0 ≤ goodEntry.num_unique ∧
      goodEntry.columns.Pairwise (fun a b => strLe a b = true)) ∧
    (0 ≤ goodEntry.unique_percentage ∧ goodEntry.unique_percentage ≤ 1) :=
  ⟨(import_record_invariants_amended goodFile "d").1 goodEntry
      (List.mem_cons_self _ _),
    (import_record_invariants_amended goodFile "d").2
      (by
        intro m hm
        simp only [goodFile, List.filterMap_cons, id, List.filterMap_nil,
          List.mem_cons, List.not_mem_nil, or_false] at hm
        rcases hm with rfl | rfl
        · exact ⟨le_refl 0, by simp⟩
        · exact ⟨by simp, le_refl 100⟩)
      goodEntry (List.mem_cons_self _ _)⟩

/-- C10: a missing history log file makes `parse_history_log` return the
empty list (the `FileNotFoundError` handler), and
`preload_cache_from_history` then returns without creating or modifying
the store. -/
theorem missing_history_file_noop (store : Option (List CacheEntry))
    (name : String) :
    parse_history_log none = [] ∧
    preload_cache_from_history none store name = store :=
  ⟨rfl, rfl⟩

end StoreHist

namespace CacheSearch

/-- C3 (spec-modelled): the Evaluator consults the Cache Store first: on a
hit for the canonical key it returns the stored result unchanged with zero
Dataset Handle queries and an unchanged store; and evaluating the same
(dataset identifier, column set) twice against the persisted store yields
an identical count, with the second evaluation performing zero Dataset
Handle queries and leaving the store unchanged (a pure cache hit). -/
theorem evaluator_cache_idempotent (s : List StoreHist.CacheEntry)
    (did : String) (rows : List FindUnique.Row) (c : List String) :
    (∀ e, lookupStore s did (canonKey c) = some e →
      evaluateCached s did rows c
        = ⟨e.num_unique, e.unique_percentage, 0, s⟩) ∧
    (evaluateCached (evaluateCached s did rows c).store did rows c).count
        = (evaluateCached s did rows c).count ∧
    (evaluateCached (evaluateCached s did rows c).store did rows c).queries
        = 0 ∧
    (evaluateCached (evaluateCached s did rows c).store did rows c).store
        = (evaluateCached s did rows c).store := by
  constructor
  · intro e he
    simp [evaluateCached, he]
  · cases hl : lookupStore s did (canonKey c) with
    | some e =>
      simp [evaluateCached, hl]
    | none =>
      have hl2 : lookupStore
          (s ++ [⟨did, canonKey c,
            (FindUnique.distinctCount rows c : ℤ),
            (FindUnique.distinctCount rows c : ℚ) / (rows.length : ℚ)⟩])
          did (canonKey c)
          = some ⟨did, canonKey c, (FindUnique.distinctCount rows c : ℤ),
              (FindUnique.distinctCount rows c : ℚ) / (rows.length : ℚ)⟩ := by
        unfold lookupStore at hl ⊢
        rw [List.find?_append, hl]
        simp
      simp [evaluateCached, hl, hl2]

/-- Witness for C3: looking up the pre-seeded store `wStore` for the
column set `["b", "a"]` — whose canonical key is `["a", "b"]` — returns
the stored count 5 and fraction `5 / 6` unchanged, with zero Dataset
Handle queries and an unchanged store. -/
theorem evaluator_cache_idempotent_witness :
    evaluateCached wStore "ds" [] ["b", "a"]
      = ⟨(5 : ℤ), 5 / 6, 0, wStore⟩ :=
  (evaluator_cache_idempotent wStore "ds" [] ["b", "a"]).1
    ⟨"ds", ["a", "b"], 5, 5 / 6⟩ rfl

end CacheSearch
